import Mathlib

/-!
Verification of the Genesis-RS manifest pipeline and secret planner.

This file gives a shallow embedding of the core data model and operations of
the repository — the generic value tree and its path algebra
(`crates/genesis-manifest/src/transform.rs`), the manifest stage types and
cache (`crates/genesis-manifest/src/types.rs`, `cache.rs`), the manifest
providers (`crates/genesis-manifest/src/provider.rs`) and the secret plan
(`crates/genesis-secrets/src/plan.rs`) — and proves or refutes the spec's
claims about them.
-/

namespace Genesis

/-- Generic value tree, mirroring `serde_json::Value` (the in-memory form of
all manifest YAML in `transform.rs`).  Objects are string-keyed maps,
modelled as association lists; numbers are modelled as integers (no claim
touches float arithmetic). -/
inductive JValue where
  | null
  | bool (b : Bool)
  | num (n : Int)
  | str (s : String)
  | arr (elems : List JValue)
  | obj (fields : List (String × JValue))

/-- First-match lookup in an association list (`Map::get`). -/
def lookupA {α : Type} : List (String × α) → String → Option α
  | [], _ => none
  | (k', v) :: rest, k => if k' = k then some v else lookupA rest k

/-- Insert into an association list, replacing the first binding of the key
if present, appending otherwise (`Map::insert`). -/
def insertA {α : Type} : List (String × α) → String → α → List (String × α)
  | [], k, v => [(k, v)]
  | (k', v') :: rest, k, v =>
    if k' = k then (k, v) :: rest else (k', v') :: insertA rest k v

/-- Remove the first binding of a key from an association list
(`Map::remove`). -/
def removeA {α : Type} : List (String × α) → String → List (String × α)
  | [], _ => []
  | (k', v') :: rest, k => if k' = k then rest else (k', v') :: removeA rest k

/-- Split a character list at every occurrence of `sep`; mirrors Rust's
`str::split`, which always yields at least one (possibly empty) piece. -/
def splitCharAux (sep : Char) : List Char → List Char → List (List Char)
  | [], acc => [acc.reverse]
  | c :: rest, acc =>
    if c = sep then acc.reverse :: splitCharAux sep rest []
    else splitCharAux sep rest (c :: acc)

/-- Split a string at every occurrence of `sep` (Rust `s.split(sep)`). -/
def splitChar (sep : Char) (s : String) : List String :=
  (splitCharAux sep s.data []).map List.asString

/-- `path.split('.')` as used throughout `transform.rs`. -/
def splitDot (s : String) : List String := splitChar '.' s

/-- `secret_path.split(':')` as used by `entomb` in `provider.rs`. -/
def splitColon (s : String) : List String := splitChar ':' s

/-- `str::parse::<usize>()` on an array-index segment: an optional leading
`+` followed by one or more ASCII digits.  Overflow of the machine word is
not modelled (no claim involves indices of that size). -/
def parseNat (s : String) : Option Nat :=
  let core : List Char → Option Nat := fun cs =>
    if cs.isEmpty then none
    else if cs.all Char.isDigit then
      some (cs.foldl (fun n c => n * 10 + (c.toNat - '0'.toNat)) 0)
    else none
  match s.data with
  | '+' :: rest => core rest
  | cs => core cs

/-- Errors surfaced by the embedded operations; each constructor stands for
one `GenesisError::Manifest`/`GenesisError::Secret` message shape. -/
inductive GError where
  | emptyPath
  | rootNotObject
  | cannotSetAtPath (path : String)
  | invalidPath (path : String)
  | circularDependency (path : String)
  | secretNotFound (path : String)
  | indexPanic
  | fuelExhausted
  | sourceNotFound (file : String)
  | noSourceFiles
  | noEnvFiles
  | mergeFailure (msg : String)
  | evalFailure (msg : String)
deriving Repr, DecidableEq

/-- `ManifestTransformer::get_path` (transform.rs), with the path already
split on `'.'`: traverse objects by key and arrays by parsed integer index;
any failure yields `none`. -/
def getPathParts : JValue → List String → Option JValue
  | v, [] => some v
  | v, part :: rest =>
    match v with
    | .obj m =>
      match lookupA m part with
      | some next => getPathParts next rest
      | none => none
    | .arr xs =>
      match parseNat part with
      | some i =>
        match xs.get? i with
        | some next => getPathParts next rest
        | none => none
      | none => none
    | _ => none

/-- `ManifestTransformer::get_path` on a dot-notation path string. -/
def getPath (v : JValue) (path : String) : Option JValue :=
  getPathParts v (splitDot path)

/-- `ManifestTransformer::set_path` (transform.rs) with the path already
split: write `newValue` at the path, creating intermediate empty objects for
missing segments; fail when an intermediate or final node is not an object.
(The Rust mutates in place and may leave freshly created empty objects
behind on failure; on success the results coincide, and every claim below
concerns the success case.) -/
def setPathParts : JValue → List String → JValue → Except GError JValue
  | _, [], _ => .error .emptyPath
  | v, [part], newValue =>
    match v with
    | .obj m => .ok (.obj (insertA m part newValue))
    | _ => .error .rootNotObject
  | v, part :: rest, newValue =>
    match v with
    | .obj m =>
      let child := (lookupA m part).getD (.obj [])
      match setPathParts child rest newValue with
      | .ok child' => .ok (.obj (insertA m part child'))
      | .error e => .error e
    | _ => .error (.invalidPath part)

/-- `ManifestTransformer::set_path` on a dot-notation path string. -/
def setPath (v : JValue) (path : String) (newValue : JValue) : Except GError JValue :=
  setPathParts v (splitDot path) newValue

/-- `ManifestTransformer::delete_path` (transform.rs) with the path already
split: remove the object key addressed by the path; every traversal failure
(missing key, non-object node) is a silent no-op. -/
def deletePathParts : JValue → List String → JValue
  | v, [] => v
  | v, [part] =>
    match v with
    | .obj m => .obj (removeA m part)
    | _ => v
  | v, part :: rest =>
    match v with
    | .obj m =>
      match lookupA m part with
      | some child => .obj (insertA m part (deletePathParts child rest))
      | none => v
    | _ => v

/-- `ManifestTransformer::delete_path` on a dot-notation path string. -/
def deletePath (v : JValue) (path : String) : JValue :=
  deletePathParts v (splitDot path)

/-- `ManifestTransformer::prune` at the value level: delete each given path
in order. -/
def prune (v : JValue) (paths : List String) : JValue :=
  paths.foldl deletePath v

/-- The path a key contributes in `collect_paths` (transform.rs):
`if prefix.is_empty() { key } else { prefix + "." + key }`. -/
def mkPath (pre k : String) : String :=
  if pre = "" then k else pre ++ "." ++ k

/-- The path an array index contributes in `collect_paths`:
`prefix + "[" + i + "]"`. -/
def arrPath (pre : String) (i : Nat) : String :=
  pre ++ "[" ++ toString i ++ "]"

mutual

/-- `ManifestTransformer::collect_paths` (transform.rs): every addressable
path in the tree, pre-order, parent before child.  Object keys extend the
prefix with a dot, array indices with a bracketed index. -/
def collectPaths : JValue → String → List String
  | .obj m, pre => collectFields m pre
  | .arr xs, pre => collectElems xs 0 pre
  | _, _ => []

/-- The object branch of `collect_paths`: one path per key, then recurse. -/
def collectFields : List (String × JValue) → String → List String
  | [], _ => []
  | (k, v) :: rest, pre =>
    (mkPath pre k :: collectPaths v (mkPath pre k)) ++ collectFields rest pre

/-- The array branch of `collect_paths`: one bracketed path per index. -/
def collectElems : List JValue → Nat → String → List String
  | [], _, _ => []
  | v :: rest, i, pre =>
    (arrPath pre i :: collectPaths v (arrPath pre i)) ++ collectElems rest (i + 1) pre

end

/-- `ManifestTransformer::extract_all_paths` at the value level. -/
def extractAllPaths (v : JValue) : List String :=
  collectPaths v ""

/-! ## Secret plan (crates/genesis-secrets/src/plan.rs) -/

/-- A flat string-keyed secret record, the value type of the vault store. -/
abbrev FlatMap := List (String × String)

/-- The vault store's content, path to record.  The `VaultStore` trait is an
external collaborator; its five operations are modelled as pure map
operations, i.e. every store call succeeds (a secret exists iff its path is
bound). -/
abbrev Store := List (String × FlatMap)

/-- `VaultStore::exists`. -/
def storeExists (st : Store) (path : String) : Bool :=
  (lookupA st path).isSome

/-- `VaultStore::read`: `none` models the `NotFound` error. -/
def storeRead (st : Store) (path : String) : Option FlatMap :=
  lookupA st path

/-- `VaultStore::write`. -/
def storeWrite (st : Store) (path : String) (v : FlatMap) : Store :=
  insertA st path v

/-- The slice of the `Secret` trait object that `SecretPlan` consumes: its
path, its declared dependency paths, and the record its `generate()` call
produces (generation is modelled as succeeding). -/
structure SecretD where
  path : String
  dependencies : List String
  generateValue : FlatMap

/-- `SecretPlan`: the ordered secret list, the store handle and the path
prefix.  Note the Rust struct keeps no record of whether
`sort_by_dependencies` has been called. -/
structure PlanState where
  secrets : List SecretD
  store : Store
  basePath : String

/-- The mutable state of the `visit` closure inside `sort_by_dependencies`:
the `visited` and `visiting` hash sets (modelled as duplicate-free lists)
and the `sorted` index list. -/
structure VisitState where
  visited : List String
  visiting : List String
  sorted : List Nat

mutual

/-- The recursive `visit` function of `sort_by_dependencies` (plan.rs):
skip paths already visited, fail with `CircularDependency` on a path in the
visiting set, fail with `Secret not found` on a path with no descriptor,
otherwise visit all dependencies and then emit the descriptor's index.
Recursion depth in the Rust is bounded because every recursing level adds a
distinct secret path to the visiting set; the embedding makes this explicit
with a fuel argument (`fuelExhausted` is returned only below that bound and
is never reached by the top-level call). -/
def visit (secrets : List SecretD) : Nat → String → VisitState →
    Except GError VisitState
  | 0, _, _ => .error .fuelExhausted
  | fuel + 1, path, st =>
    if path ∈ st.visited then .ok st
    else if path ∈ st.visiting then .error (.circularDependency path)
    else
      let st1 : VisitState := { st with visiting := path :: st.visiting }
      match secrets.findIdx? (fun s => s.path = path) with
      | none => .error (.secretNotFound path)
      | some idx =>
        match secrets.get? idx with
        | none => .error (.secretNotFound path)
        | some s =>
          match visitList secrets fuel s.dependencies st1 with
          | .error e => .error e
          | .ok st2 =>
            .ok { visited := path :: st2.visited,
                  visiting := st2.visiting.erase path,
                  sorted := st2.sorted ++ [idx] }

/-- The `for dep in dependencies` loop inside `visit`. -/
def visitList (secrets : List SecretD) : Nat → List String → VisitState →
    Except GError VisitState
  | _, [], st => .ok st
  | fuel, dep :: rest, st =>
    match visit secrets fuel dep st with
    | .error e => .error e
    | .ok st' => visitList secrets fuel rest st'

end

/-- Rust `Vec::swap_remove(i)`: return the element at `i` and the vector
with the last element moved into position `i`; the Rust panics when `i` is
out of bounds, modelled as `none`. -/
def swapRemove {α : Type} (xs : List α) (i : Nat) : Option (α × List α) :=
  if h : i < xs.length then
    let x := xs.get ⟨i, h⟩
    let rest := xs.dropLast
    if i = xs.length - 1 then some (x, rest)
    else some (x, rest.set i ((xs.getLast?).getD x))
  else none

/-- The reordering loop at the end of `sort_by_dependencies`:
`for idx in sorted { new_secrets.push(self.secrets.swap_remove(idx)) }`.
`none` models an index-out-of-bounds panic in `swap_remove`. -/
def reorderAux : List SecretD → List Nat → List SecretD → Option (List SecretD)
  | _, [], acc => some acc
  | cur, idx :: rest, acc =>
    match swapRemove cur idx with
    | some (x, cur') => reorderAux cur' rest (acc ++ [x])
    | none => none

/-- The `for i in 0..self.secrets.len()` loop of `sort_by_dependencies`:
visit every secret's path with fresh full fuel (the Rust recursion depth is
bounded by `secrets.length + 1`, see `visit`). -/
def sortVisitAll (secrets : List SecretD) : List SecretD → VisitState →
    Except GError VisitState
  | [], st => .ok st
  | s :: rest, st =>
    match visit secrets (secrets.length + 1) s.path st with
    | .error e => .error e
    | .ok st' => sortVisitAll secrets rest st'

/-- `SecretPlan::sort_by_dependencies` (plan.rs): depth-first topological
sort of the secret list, then reordering via `swap_remove`.  The store and
base path pass through untouched; `indexPanic` models the Rust panic when
`swap_remove` is handed a stale index. -/
def sortByDependencies (p : PlanState) : Except GError PlanState :=
  match sortVisitAll p.secrets p.secrets ⟨[], [], []⟩ with
  | .error e => .error e
  | .ok st =>
    match reorderAux p.secrets st.sorted [] with
    | none => .error .indexPanic
    | some newSecrets => .ok { p with secrets := newSecrets }

/-- The loop of `SecretPlan::generate_missing` (plan.rs): for each secret in
list order, skip it when `store.exists(base_path ++ path)`, otherwise
generate and write it. -/
def generateMissingLoop (basePath : String) : List SecretD → List String → Store →
    Except GError (List String × Store)
  | [], generated, st => .ok (generated, st)
  | s :: rest, generated, st =>
    let fullPath := basePath ++ s.path
    if storeExists st fullPath then
      generateMissingLoop basePath rest generated st
    else
      generateMissingLoop basePath rest (generated ++ [s.path])
        (storeWrite st fullPath s.generateValue)

/-- `SecretPlan::generate_missing`: returns the generated paths and the
resulting store. -/
def generateMissing (p : PlanState) : Except GError (List String × Store) :=
  generateMissingLoop p.basePath p.secrets [] p.store

/-- The loop of `SecretPlan::rotate` (plan.rs): regenerate and overwrite
every secret whose path is in the given subset. -/
def rotateLoop (basePath : String) (paths : List String) :
    List SecretD → List String → Store → Except GError (List String × Store)
  | [], rotated, st => .ok (rotated, st)
  | s :: rest, rotated, st =>
    if s.path ∈ paths then
      rotateLoop basePath paths rest (rotated ++ [s.path])
        (storeWrite st (basePath ++ s.path) s.generateValue)
    else rotateLoop basePath paths rest rotated st

/-- `SecretPlan::rotate`. -/
def rotate (p : PlanState) (paths : List String) : Except GError (List String × Store) :=
  rotateLoop p.basePath paths p.secrets [] p.store

/-! ## Manifest stages (crates/genesis-manifest/src/types.rs) -/

/-- `ManifestMetadata` (types.rs); the generation timestamp is an abstract
integer instant and file paths are strings. -/
structure ManifestMetadata where
  env_name : String
  kit_name : String
  kit_version : String
  features : List String
  generated_at : Int
  genesis_version : String
  source_files : List String

/-- Substring test (`str::contains` with a string pattern). -/
def strContains (s pat : String) : Bool :=
  decide (pat.data <:+: s.data)

/-- `UnevaluatedManifest::detect_operators` (types.rs). -/
def detect_operators (content : String) : Bool :=
  strContains content "((" || strContains content "((!" ||
    strContains content "(($" || strContains content "((@"

/-- `UnevaluatedManifest` (types.rs). -/
structure UnevaluatedManifest where
  content : String
  metadata : ManifestMetadata
  has_operators : Bool

/-- `UnevaluatedManifest::new`: derive `has_operators` from the content. -/
def UnevaluatedManifest.make (content : String) (metadata : ManifestMetadata) :
    UnevaluatedManifest :=
  ⟨content, metadata, detect_operators content⟩

/-- `PartialManifest` (types.rs). -/
structure PartialManifest where
  content : String
  metadata : ManifestMetadata
  pending_secrets : List String

/-- `PartialManifest::is_complete`. -/
def PartialManifest.is_complete (m : PartialManifest) : Bool :=
  m.pending_secrets.isEmpty

/-- `EntombedManifest` (types.rs). -/
structure EntombedManifest where
  content : String
  metadata : ManifestMetadata
  entombed_secrets : List String

/-! ## Entombment (crates/genesis-manifest/src/provider.rs) -/

/-- One iteration of the entombment loop of
`StandardManifestProvider::entomb` (provider.rs): split the pending
reference on `':'`; unless it has exactly two parts it is skipped
(`continue`); otherwise read `vault_prefix ++ "/" ++ store_path` from the
vault and keep the reference exactly when the read succeeds and the
returned record contains the key.  The accumulator carries the kept
references together with the trace of vault paths read, so that "no store
read happens" is expressible. -/
def entombStep (store : Store) (vaultPrefix : String) (ref : String)
    (acc : List String × List String) : List String × List String :=
  match splitColon ref with
  | [vaultPath, key] =>
    let fullPath := vaultPrefix ++ "/" ++ vaultPath
    match storeRead store fullPath with
    | some data =>
      if (lookupA data key).isSome then (ref :: acc.1, fullPath :: acc.2)
      else (acc.1, fullPath :: acc.2)
    | none => (acc.1, fullPath :: acc.2)
  | _ => acc

/-- The whole entombment loop over the pending references, in order. -/
def entombLoop (store : Store) (vaultPrefix : String) :
    List String → List String × List String
  | [] => ([], [])
  | ref :: rest => entombStep store vaultPrefix ref (entombLoop store vaultPrefix rest)

/-- Whether the loop keeps a given reference: it splits into exactly two
parts, the prefixed store path reads successfully, and the record contains
the key. -/
def refKept (store : Store) (vaultPrefix : String) (ref : String) : Bool :=
  match splitColon ref with
  | [vaultPath, key] =>
    match storeRead store (vaultPrefix ++ "/" ++ vaultPath) with
    | some data => (lookupA data key).isSome
    | none => false
  | _ => false

/-- `StandardManifestProvider::entomb`: compute the entombed references,
then re-evaluate the content through the merge engine (an external
subprocess, passed as the function `evalF`). -/
def entomb (evalF : String → Except GError String) (store : Store)
    (vaultPrefix : String) (m : PartialManifest) :
    Except GError EntombedManifest :=
  let entombed := (entombLoop store vaultPrefix m.pending_secrets).1
  match evalF m.content with
  | .error e => .error e
  | .ok finalContent => .ok ⟨finalContent, m.metadata, entombed⟩

/-! ## Manifest cache (crates/genesis-manifest/src/cache.rs, types.rs) -/

/-- `CachedManifest` (types.rs): a persisted cache entry.  The SHA-256
content hash is modelled by an abstract hash function `h` supplied to each
operation that hashes. -/
structure CachedManifestE where
  content : String
  metadata : ManifestMetadata
  cached_at : Int
  content_hash : String

/-- `CachedManifest::new`: hash the content and stamp the entry with the
current instant. -/
def CachedManifestE.make (h : String → String) (now : Int) (content : String)
    (metadata : ManifestMetadata) : CachedManifestE :=
  ⟨content, metadata, now, h content⟩

/-- `CachedManifest::validate` (types.rs): recompute the content hash and
compare it with the stored one. -/
def CachedManifestE.validate (c : CachedManifestE) (h : String → String) : Bool :=
  h c.content == c.content_hash

/-- `CachedManifest::is_expired` (types.rs): strictly older than the
maximum age. -/
def CachedManifestE.is_expired (c : CachedManifestE) (now maxAge : Int) : Bool :=
  now - c.cached_at > maxAge

/-- The cache directory (`ManifestCache`): one serialized entry per
environment name.  A file's modification time is modelled by its entry's
`cached_at`, both being set at write time. -/
abbrev CacheState := List (String × CachedManifestE)

/-- `ManifestCache::get` (cache.rs): a missing entry is a miss; an entry
past `max_age` is evicted and a miss even if its hash is valid; an entry
failing `validate` (hash mismatch) is evicted and a miss; only then is the
entry returned.  No case surfaces an error to the caller.  (A file whose
JSON fails to load is also a miss in the Rust, without eviction; entries in
this model are always well-formed.)  Returns the result together with the
possibly-evicted directory. -/
def cacheGet (h : String → String) (now maxAge : Int) (st : CacheState)
    (envName : String) : Option CachedManifestE × CacheState :=
  match lookupA st envName with
  | none => (none, st)
  | some c =>
    if c.is_expired now maxAge then (none, removeA st envName)
    else if !(c.validate h) then (none, removeA st envName)
    else (some c, st)

/-- `ManifestCache::cleanup` (cache.rs): when the entry count exceeds
`max_entries`, drop the oldest-by-modification-time entries down to the
limit. -/
def cacheCleanup (maxEntries : Nat) (st : CacheState) : CacheState :=
  if st.length ≤ maxEntries then st
  else
    let sorted := st.mergeSort (fun a b => a.2.cached_at ≤ b.2.cached_at)
    let doomed := (sorted.take (st.length - maxEntries)).map Prod.fst
    st.filter (fun kv => !(doomed.contains kv.1))

/-- `ManifestCache::put` (cache.rs): hash and write a fresh entry, then run
cleanup. -/
def cachePut (h : String → String) (now : Int) (maxEntries : Nat)
    (st : CacheState) (envName : String) (content : String)
    (metadata : ManifestMetadata) : CacheState :=
  cacheCleanup maxEntries
    (insertA st envName (CachedManifestE.make h now content metadata))

/-- `CachedManifestProvider::evaluate` (provider.rs): consult the cache
keyed by the environment name; on a hit return the cached content as a
`Partial` with empty `pending_secrets`; on a miss delegate to the inner
provider (`innerEval`, which shells out to the merge engine) and store the
result only when it `is_complete()`. -/
def cachedEvaluate (innerEval : UnevaluatedManifest → Except GError PartialManifest)
    (h : String → String) (now maxAge : Int) (maxEntries : Nat)
    (st : CacheState) (u : UnevaluatedManifest) :
    Except GError (PartialManifest × CacheState) :=
  match cacheGet h now maxAge st u.metadata.env_name with
  | (some cached, st') => .ok (⟨cached.content, cached.metadata, []⟩, st')
  | (none, st') =>
    match innerEval u with
    | .error e => .error e
    | .ok pm =>
      if pm.is_complete then
        .ok (pm, cachePut h now maxEntries st' u.metadata.env_name
                  pm.content pm.metadata)
      else .ok (pm, st')

/-! ## Unevaluated manifest generation (provider.rs) -/

/-- `Blueprint` (genesis-kit): the kit's ordered file lists for the chosen
feature set. -/
structure Blueprint where
  base : List String
  features : List String
  subkits : List String

/-- `StandardManifestProvider::merge_sources` (provider.rs): error on an
empty file list, otherwise invoke the merge engine. -/
def mergeSources (mergeF : List String → Except GError String)
    (files : List String) : Except GError String :=
  if files.isEmpty then .error .noSourceFiles
  else mergeF files

/-- `StandardManifestProvider::generate_unevaluated` (provider.rs): build
the full file list in the fixed order kit-base, environment files, feature
files, subkit files; fail with `Source file not found` at the first file
missing from disk; merge; derive the environment name from the first
environment file; and wrap the result with metadata recording every merged
path.  The filesystem (`fsExists`), merge engine (`mergeF`,
`Spruce::merge`) and `EnvName::from_path` (`envNameOfPath`) are external
collaborators passed as functions. -/
def allSourceFiles (bp : Blueprint) (envFiles : List String) : List String :=
  bp.base ++ envFiles ++ bp.features ++ bp.subkits

/-- See `allSourceFiles`. -/
def generate_unevaluated (kitName kitVersion : String) (features : List String)
    (genVersion : String) (now : Int) (bp : Blueprint) (envFiles : List String)
    (fsExists : String → Bool)
    (mergeF : List String → Except GError String)
    (envNameOfPath : String → Except GError String) :
    Except GError UnevaluatedManifest :=
  match (allSourceFiles bp envFiles).find? (fun f => !(fsExists f)) with
  | some f => .error (.sourceNotFound f)
  | none =>
    match mergeSources mergeF (allSourceFiles bp envFiles) with
    | .error e => .error e
    | .ok content =>
      match envFiles.head? with
      | none => .error .noEnvFiles
      | some envFile =>
        match envNameOfPath envFile with
        | .error e => .error e
        | .ok envName =>
          .ok (UnevaluatedManifest.make content
            ⟨envName, kitName, kitVersion, features, now, genVersion,
              allSourceFiles bp envFiles⟩)

/-! ## Basic lemmas about the association-list operations -/

theorem lookupA_insertA_self {α : Type} (m : List (String × α)) (k : String) (v : α) :
    lookupA (insertA m k v) k = some v := by
  induction m with
  | nil => simp [insertA, lookupA]
  | cons kv rest ih =>
    by_cases h : kv.1 = k
    · simp [insertA, h, lookupA]
    · simpa [insertA, h, lookupA] using ih

/-! ## Claims about the secret plan -/

/-- Two-secret plan: `A` depends on `B`, `B` depends on nothing. -/
def secA : SecretD := ⟨"A", ["B"], [("value", "a")]⟩

/-- See `secA`. -/
def secB : SecretD := ⟨"B", [], [("value", "b")]⟩

/-- C1: the claim says `sort_by_dependencies` succeeds with B before A for
any insertion order of the two secrets.  The code violates this: the
reorder loop feeds `Vec::swap_remove` indices computed against the
original vector, so for insertion order [B, A] (topological index order
[0, 1]) the second `swap_remove(1)` runs on a vector of length 1 and
panics; only the insertion order [A, B] succeeds.  This theorem evaluates
the embedded code at both insertion orders. -/
theorem C1_sort_panics_on_insertion_order_BA :
    sortByDependencies ⟨[secB, secA], [], "p/"⟩ = .error .indexPanic ∧
    sortByDependencies ⟨[secA, secB], [], "p/"⟩ = .ok ⟨[secB, secA], [], "p/"⟩ := by
  constructor <;>
    simp [sortByDependencies, sortVisitAll, visit, visitList, reorderAux,
      swapRemove, secA, secB, List.findIdx?]

/-- C2: a two-secret dependency cycle A→B→A makes `sort_by_dependencies`
fail with the `Circular dependency` error naming the first path revisited
while in the visiting set, for either insertion order and for any secret
values, store content and base path; and a successful sort never changes
the plan's store (the sort touches only the secret list).  The embedding is
total, so the exhibited error also shows the Rust recursion terminates on
this input (the fuel bound of `visit` is never reached — the result is not
`fuelExhausted`). -/
theorem C2_cycle_fails_with_circular_dependency (genA genB : FlatMap)
    (store : Store) (bp : String) (firstA : Bool) :
    sortByDependencies
        ⟨if firstA then [⟨"A", ["B"], genA⟩, ⟨"B", ["A"], genB⟩]
          else [⟨"B", ["A"], genB⟩, ⟨"A", ["B"], genA⟩], store, bp⟩
      = .error (.circularDependency (if firstA then "A" else "B")) ∧
    (∀ p q : PlanState, sortByDependencies p = .ok q →
      q.store = p.store ∧ q.basePath = p.basePath) := by
  constructor
  · cases firstA <;>
      simp [sortByDependencies, sortVisitAll, visit, visitList, List.findIdx?]
  · intro p q hok
    unfold sortByDependencies at hok
    cases hsv : sortVisitAll p.secrets p.secrets ⟨[], [], []⟩ with
    | error e => simp [hsv] at hok
    | ok st =>
      simp only [hsv] at hok
      cases hre : reorderAux p.secrets st.sorted [] with
      | none => simp [hre] at hok
      | some newSecrets =>
        simp only [hre] at hok
        injection hok with h
        subst h
        exact ⟨rfl, rfl⟩

/-- C3 counterexample: the claim says execution operations on an unsorted
plan fail fast and write nothing to the store.  The code has no sortedness
check at all (`SecretPlan` keeps no sortedness state): on the unsorted plan
[A, B] — never passed through `sort_by_dependencies`, and listing A before
the secret it depends on — `generate_missing` returns `Ok` and writes both
secrets to the store. -/
theorem C3_counterexample_generate_on_unsorted_plan_succeeds :
    generateMissing ⟨[secA, secB], [], "p/"⟩
      = .ok (["A", "B"], [("p/A", [("value", "a")]), ("p/B", [("value", "b")])]) := by
  simp [generateMissing, generateMissingLoop, secA, secB, storeExists,
    storeWrite, lookupA, insertA]

theorem generateMissingLoop_ok (bp : String) (secrets : List SecretD) :
    ∀ gen st, ∃ r, generateMissingLoop bp secrets gen st = .ok r := by
  induction secrets with
  | nil => exact fun gen st => ⟨_, rfl⟩
  | cons s rest ih =>
    intro gen st
    by_cases h : storeExists st (bp ++ s.path) <;>
      simpa [generateMissingLoop, h] using ih _ _

theorem rotateLoop_ok (bp : String) (paths : List String) (secrets : List SecretD) :
    ∀ rotated st, ∃ r, rotateLoop bp paths secrets rotated st = .ok r := by
  induction secrets with
  | nil => exact fun rotated st => ⟨_, rfl⟩
  | cons s rest ih =>
    intro rotated st
    by_cases h : s.path ∈ paths <;> simpa [rotateLoop, h] using ih _ _

/-- C3 amended: the execution operations perform no sortedness check and
proceed over the secret list in its current order; with a store whose calls
succeed and generators that succeed, `generate_missing` and `rotate` return
`Ok` on every plan, sorted or not. -/
theorem C3_no_sortedness_check (p : PlanState) (paths : List String) :
    (∃ r, generateMissing p = .ok r) ∧ (∃ r, rotate p paths = .ok r) :=
  ⟨generateMissingLoop_ok p.basePath p.secrets [] p.store,
   rotateLoop_ok p.basePath paths p.secrets [] p.store⟩

/-! ## Claims about entombment -/

theorem mem_entombStep (store : Store) (pre ref r : String)
    (acc : List String × List String) :
    r ∈ (entombStep store pre ref acc).1 ↔
      (r = ref ∧ refKept store pre ref = true) ∨ r ∈ acc.1 := by
  unfold entombStep refKept
  rcases hsp : splitColon ref with _ | ⟨a, _ | ⟨b, _ | ⟨c, t⟩⟩⟩
  · simp
  · simp
  · rcases hrd : storeRead store (pre ++ "/" ++ a) with _ | data
    · simp [hrd]
    · by_cases hk : (lookupA data b).isSome <;> simp [hrd, hk]
  · simp

theorem mem_entombLoop (store : Store) (pre : String) :
    ∀ pending (r : String),
      r ∈ (entombLoop store pre pending).1 ↔
        r ∈ pending ∧ refKept store pre r = true := by
  intro pending r
  induction pending with
  | nil => simp [entombLoop]
  | cons x rest ih =>
    rw [entombLoop, mem_entombStep, ih, List.mem_cons]
    constructor
    · rintro (⟨hrx, hkept⟩ | ⟨hmem, hkept⟩)
      · exact ⟨Or.inl hrx, by rw [hrx]; exact hkept⟩
      · exact ⟨Or.inr hmem, hkept⟩
    · rintro ⟨hrx | hmem, hkept⟩
      · exact Or.inl ⟨hrx, by rw [← hrx]; exact hkept⟩
      · exact Or.inr ⟨hmem, hkept⟩

/-- C4: when `entomb` succeeds, a pending reference of the form
`store_path:key` is in `entombed_secrets` exactly when reading
`prefix ++ "/" ++ store_path` from the vault succeeds and the returned
record contains the key; and `entombed_secrets` is always a subset of the
source `Partial`'s `pending_secrets`.  Read failures and missing keys only
exclude the reference — `entomb`'s success is decided solely by the final
re-evaluation (`evalF`). -/
theorem C4_entomb_reference_iff_readable (evalF : String → Except GError String)
    (store : Store) (pre : String) (m : PartialManifest) (ent : EntombedManifest)
    (sp key ref : String)
    (hok : entomb evalF store pre m = .ok ent)
    (href : ref ∈ m.pending_secrets)
    (hsplit : splitColon ref = [sp, key]) :
    (ref ∈ ent.entombed_secrets ↔
      ∃ data, storeRead store (pre ++ "/" ++ sp) = some data ∧
        (lookupA data key).isSome = true) ∧
    (∀ r ∈ ent.entombed_secrets, r ∈ m.pending_secrets) := by
  have hsecrets : ent.entombed_secrets = (entombLoop store pre m.pending_secrets).1 := by
    unfold entomb at hok
    cases hev : evalF m.content with
    | error e => simp [hev] at hok
    | ok fc =>
      simp only [hev] at hok
      injection hok with h
      subst h
      rfl
  rw [hsecrets]
  constructor
  · rw [mem_entombLoop]
    unfold refKept
    rw [hsplit]
    rcases hrd : storeRead store (pre ++ "/" ++ sp) with _ | data
    · simp [href, hrd]
    · by_cases hk : (lookupA data key).isSome <;> simp [href, hrd, hk]
  · intro r hr
    exact ((mem_entombLoop store pre m.pending_secrets r).mp hr).1

/-- C4 witness: a concrete entombment where the single pending reference
`db:pass` resolves in the store. -/
theorem C4_witness :
    ∃ ent, entomb .ok [("v/db", [("pass", "x")])] "v"
        ⟨"c", ⟨"e", "k", "1", [], 0, "g", []⟩, ["db:pass"]⟩ = .ok ent ∧
      ("db:pass" ∈ ent.entombed_secrets ↔
        ∃ data, storeRead [("v/db", [("pass", "x")])] ("v" ++ "/" ++ "db") = some data ∧
          (lookupA data "pass").isSome = true) := by
  refine ⟨⟨"c", ⟨"e", "k", "1", [], 0, "g", []⟩, ["db:pass"]⟩, rfl, ?_⟩
  exact (C4_entomb_reference_iff_readable .ok [("v/db", [("pass", "x")])] "v"
    ⟨"c", ⟨"e", "k", "1", [], 0, "g", []⟩, ["db:pass"]⟩
    ⟨"c", ⟨"e", "k", "1", [], 0, "g", []⟩, ["db:pass"]⟩
    "db" "pass" "db:pass" rfl (by simp) rfl).1

theorem refKept_wellformed (store : Store) (pre ref : String)
    (h : refKept store pre ref = true) : (splitColon ref).length = 2 := by
  unfold refKept at h
  rcases hsp : splitColon ref with _ | ⟨a, _ | ⟨b, _ | ⟨c, t⟩⟩⟩ <;> rw [hsp] at h
  · simp at h
  · simp at h
  · rfl
  · simp at h

/-- C10: a pending reference that does not split on `':'` into exactly two
parts is skipped by `entomb`'s loop: it never appears in
`entombed_secrets`, and removing it from the pending list changes neither
the entombed references nor the trace of vault paths read (so it causes no
store read and no error). -/
theorem C10_entomb_skips_malformed_references (store : Store) (pre ref : String)
    (hmal : (splitColon ref).length ≠ 2) :
    (∀ pending, ref ∉ (entombLoop store pre pending).1) ∧
    (∀ xs ys, entombLoop store pre (xs ++ ref :: ys) = entombLoop store pre (xs ++ ys)) := by
  constructor
  · intro pending hkept
    exact hmal (refKept_wellformed store pre ref
      ((mem_entombLoop store pre pending ref).mp hkept).2)
  · intro xs ys
    induction xs with
    | nil =>
      have hstep : ∀ acc, entombStep store pre ref acc = acc := by
        intro acc
        unfold entombStep
        rcases hsp : splitColon ref with _ | ⟨a, _ | ⟨b, _ | ⟨c, t⟩⟩⟩
        · rfl
        · rfl
        · exact absurd (by rw [hsp]; rfl) hmal
        · rfl
      simpa [entombLoop] using hstep _
    | cons x rest ih => simp [entombLoop, ih]

/-- C10 witness: the reference `a:b:c` splits into three parts. -/
theorem C10_witness :
    (splitColon "a:b:c").length ≠ 2 ∧
    "a:b:c" ∉ (entombLoop [] "v" ["a:b:c"]).1 := by
  have h : (splitColon "a:b:c").length ≠ 2 := by decide
  exact ⟨h, (C10_entomb_skips_malformed_references [] "v" "a:b:c" h).1 ["a:b:c"]⟩

/-! ## Claims about the cache -/

/-- C6: a cache entry strictly older than the configured maximum age, or
one whose stored content hash differs from the recomputed hash of its
content, is a miss (`none`) and is evicted from the cache directory.  The
expiry case makes no demand on the hash (the entry is a miss even when its
hash is valid), and `cacheGet`'s result type has no error channel: neither
case surfaces an error or the stale value. -/
theorem C6_cache_expired_or_corrupt_entry_is_evicted_miss (h : String → String)
    (now maxAge : Int) (st : CacheState) (envName : String) (c : CachedManifestE)
    (hlook : lookupA st envName = some c)
    (hbad : c.is_expired now maxAge = true ∨ h c.content ≠ c.content_hash) :
    cacheGet h now maxAge st envName = (none, removeA st envName) := by
  unfold cacheGet
  rw [hlook]
  rcases hbad with hexp | hhash
  · simp [hexp]
  · by_cases hexp : c.is_expired now maxAge
    · simp [hexp]
    · have hval : c.validate h = false := by
        unfold CachedManifestE.validate
        simp [hhash]
      simp [hexp, hval]

/-- C6 witness: an entry cached at instant 0 read at instant 10 with a
5-unit maximum age is expired and evicted, even though its hash is intact
under the identity hash. -/
theorem C6_witness :
    lookupA [("e", (⟨"c", ⟨"e", "k", "1", [], 0, "g", []⟩, 0, "c"⟩ : CachedManifestE))] "e"
        = some ⟨"c", ⟨"e", "k", "1", [], 0, "g", []⟩, 0, "c"⟩ ∧
    cacheGet (fun s => s) 10 5
        [("e", (⟨"c", ⟨"e", "k", "1", [], 0, "g", []⟩, 0, "c"⟩ : CachedManifestE))] "e"
      = (none, removeA [("e", (⟨"c", ⟨"e", "k", "1", [], 0, "g", []⟩, 0, "c"⟩ : CachedManifestE))] "e") :=
  ⟨rfl, C6_cache_expired_or_corrupt_entry_is_evicted_miss (fun s => s) 10 5 _ "e" _ rfl
    (Or.inl (by decide))⟩

theorem cacheCleanup_of_le (maxEntries : Nat) (st : CacheState)
    (hlen : st.length ≤ maxEntries) : cacheCleanup maxEntries st = st := by
  unfold cacheCleanup
  simp [hlen]

theorem length_insertA_le {α : Type} (m : List (String × α)) (k : String) (v : α) :
    (insertA m k v).length ≤ m.length + 1 := by
  induction m with
  | nil => simp [insertA]
  | cons kv rest ih =>
    by_cases h : kv.1 = k <;> simp [insertA, h] <;> omega

/-- C5: whenever the caching provider's `evaluate` succeeds, (a) on a cache
hit the result is the cached content as a `Partial` with empty
`pending_secrets` and the cache is not written; (b) on a miss the result is
the inner provider's evaluation, the cache is written (via `put`) exactly
when the result `is_complete()`, and — as long as the directory is below
its entry limit — the written entry is the fresh result; an incomplete
result leaves the cache untouched. -/
theorem C5_cached_evaluate_hit_and_store_policy
    (innerEval : UnevaluatedManifest → Except GError PartialManifest)
    (h : String → String) (now maxAge : Int) (maxEntries : Nat)
    (st : CacheState) (u : UnevaluatedManifest) (res : PartialManifest) (st2 : CacheState)
    (hok : cachedEvaluate innerEval h now maxAge maxEntries st u = .ok (res, st2)) :
    (∀ c st', cacheGet h now maxAge st u.metadata.env_name = (some c, st') →
      res = ⟨c.content, c.metadata, []⟩ ∧ res.pending_secrets = [] ∧ st2 = st') ∧
    (∀ st', cacheGet h now maxAge st u.metadata.env_name = (none, st') →
      innerEval u = .ok res ∧
      (res.is_complete = true →
        st2 = cachePut h now maxEntries st' u.metadata.env_name res.content res.metadata ∧
        (st'.length < maxEntries →
          lookupA st2 u.metadata.env_name =
            some (CachedManifestE.make h now res.content res.metadata))) ∧
      (res.is_complete = false → st2 = st')) := by
  unfold cachedEvaluate at hok
  constructor
  · intro c st' hget
    rw [hget] at hok
    injection hok with hpair
    rw [Prod.mk.injEq] at hpair
    obtain ⟨hres, hst⟩ := hpair
    exact ⟨hres.symm, by rw [← hres], hst.symm⟩
  · intro st' hget
    rw [hget] at hok
    cases hin : innerEval u with
    | error e => rw [hin] at hok; simp at hok
    | ok pm =>
      rw [hin] at hok
      by_cases hc : pm.is_complete
      · simp only [hc, if_pos] at hok
        injection hok with hpair
        rw [Prod.mk.injEq] at hpair
        obtain ⟨hres, hst⟩ := hpair
        subst hres
        refine ⟨rfl, fun _ => ⟨hst.symm, fun hlt => ?_⟩, fun hfalse => ?_⟩
        · rw [← hst]
          unfold cachePut
          rw [cacheCleanup_of_le _ _
            (le_trans (length_insertA_le st' u.metadata.env_name _) hlt)]
          exact lookupA_insertA_self st' u.metadata.env_name _
        · rw [hc] at hfalse
          cases hfalse
      · rw [Bool.not_eq_true] at hc
        simp only [hc, Bool.false_eq_true, if_false] at hok
        injection hok with hpair
        rw [Prod.mk.injEq] at hpair
        obtain ⟨hres, hst⟩ := hpair
        subst hres
        exact ⟨rfl, fun htrue => absurd htrue (by rw [hc]; simp), fun _ => hst.symm⟩

/-- C5 witness: a concrete cache hit — the cached content comes back as a
complete `Partial` and the cache directory is untouched. -/
theorem C5_witness :
    ∃ res st2,
      cachedEvaluate (fun _ => .error (.evalFailure "unused")) (fun s => s) 0 5 10
          [("e", ⟨"c", ⟨"e", "k", "1", [], 0, "g", []⟩, 0, "c"⟩)]
          ⟨"raw", ⟨"e", "k", "1", [], 0, "g", []⟩, false⟩ = .ok (res, st2) ∧
      res.pending_secrets = [] ∧
      st2 = [("e", ⟨"c", ⟨"e", "k", "1", [], 0, "g", []⟩, 0, "c"⟩)] := by
  have hok : cachedEvaluate (fun _ => .error (.evalFailure "unused")) (fun s => s) 0 5 10
      [("e", ⟨"c", ⟨"e", "k", "1", [], 0, "g", []⟩, 0, "c"⟩)]
      ⟨"raw", ⟨"e", "k", "1", [], 0, "g", []⟩, false⟩
    = .ok (⟨"c", ⟨"e", "k", "1", [], 0, "g", []⟩, []⟩,
        [("e", ⟨"c", ⟨"e", "k", "1", [], 0, "g", []⟩, 0, "c"⟩)]) := rfl
  have happ := (C5_cached_evaluate_hit_and_store_policy
      (fun _ => .error (.evalFailure "unused")) (fun s => s) 0 5 10
      [("e", ⟨"c", ⟨"e", "k", "1", [], 0, "g", []⟩, 0, "c"⟩)]
      ⟨"raw", ⟨"e", "k", "1", [], 0, "g", []⟩, false⟩
      ⟨"c", ⟨"e", "k", "1", [], 0, "g", []⟩, []⟩
      [("e", ⟨"c", ⟨"e", "k", "1", [], 0, "g", []⟩, 0, "c"⟩)] hok).1
      ⟨"c", ⟨"e", "k", "1", [], 0, "g", []⟩, 0, "c"⟩
      [("e", ⟨"c", ⟨"e", "k", "1", [], 0, "g", []⟩, 0, "c"⟩)] rfl
  exact ⟨_, _, hok, happ.2.1, happ.2.2⟩

/-! ## Claims about unevaluated manifest generation -/

/-- C7: `generate_unevaluated` hands the merge engine exactly the ordered
list kit-base ++ environment files ++ feature files ++ subkit files (on
success the content is the merge engine's output on that list and the
metadata records that list); and when any file of the list is missing from
disk it fails with the source-not-found error naming a missing file,
with a result independent of the merge engine — the merge is not
consulted. -/
theorem C7_merge_order_fixed_and_missing_file_fails
    (kitName kitVersion genVersion : String) (features : List String) (now : Int)
    (bp : Blueprint) (envFiles : List String) (fsExists : String → Bool)
    (envNameOfPath : String → Except GError String)
    (mergeF : List String → Except GError String) :
    (∀ u, generate_unevaluated kitName kitVersion features genVersion now bp envFiles
        fsExists mergeF envNameOfPath = .ok u →
      mergeF (bp.base ++ envFiles ++ bp.features ++ bp.subkits) = .ok u.content ∧
      u.metadata.source_files = bp.base ++ envFiles ++ bp.features ++ bp.subkits) ∧
    ((∃ f ∈ bp.base ++ envFiles ++ bp.features ++ bp.subkits, fsExists f = false) →
      (∃ g, fsExists g = false ∧
        generate_unevaluated kitName kitVersion features genVersion now bp envFiles
          fsExists mergeF envNameOfPath = .error (.sourceNotFound g)) ∧
      (∀ mergeG, generate_unevaluated kitName kitVersion features genVersion now bp
          envFiles fsExists mergeF envNameOfPath
        = generate_unevaluated kitName kitVersion features genVersion now bp envFiles
            fsExists mergeG envNameOfPath)) := by
  constructor
  · intro u hok
    unfold generate_unevaluated at hok
    cases hfind : (allSourceFiles bp envFiles).find? (fun f => !(fsExists f)) with
    | some f => rw [hfind] at hok; simp at hok
    | none =>
      rw [hfind] at hok
      unfold mergeSources at hok
      by_cases hemp : (allSourceFiles bp envFiles).isEmpty
      · simp [hemp] at hok
      · simp only [hemp, Bool.false_eq_true, if_false] at hok
        cases hmerge : mergeF (allSourceFiles bp envFiles) with
        | error e => rw [hmerge] at hok; simp at hok
        | ok content =>
          simp only [hmerge] at hok
          cases hhead : envFiles.head? with
          | none => rw [hhead] at hok; simp at hok
          | some envFile =>
            simp only [hhead] at hok
            cases henv : envNameOfPath envFile with
            | error e => rw [henv] at hok; simp at hok
            | ok envName =>
              simp only [henv] at hok
              injection hok with hu
              subst hu
              exact ⟨hmerge, rfl⟩
  · intro hmiss
    have hfind : ((allSourceFiles bp envFiles).find? (fun f => !(fsExists f))).isSome := by
      rw [List.find?_isSome]
      obtain ⟨f, hf, hfe⟩ := hmiss
      exact ⟨f, hf, by simp [hfe]⟩
    obtain ⟨g, hg⟩ := Option.isSome_iff_exists.mp hfind
    have hge : fsExists g = false := by
      have := List.find?_some hg
      simpa using this
    constructor
    · refine ⟨g, hge, ?_⟩
      unfold generate_unevaluated
      rw [hg]
    · intro mergeG
      unfold generate_unevaluated
      rw [hg]

/-- C7 witness: with one base file and one environment file both on disk,
the merge engine is invoked on the ordered pair and its output becomes the
manifest content. -/
theorem C7_witness :
    ∃ u, generate_unevaluated "k" "1" [] "g" 0 ⟨["b"], [], []⟩ ["e"]
        (fun _ => true) (fun _ => .ok "merged") (fun _ => .ok "e") = .ok u ∧
      (fun _ => (.ok "merged" : Except GError String)) (["b"] ++ ["e"] ++ [] ++ [])
          = .ok u.content ∧
      u.metadata.source_files = ["b"] ++ ["e"] ++ [] ++ [] := by
  refine ⟨UnevaluatedManifest.make "merged" ⟨"e", "k", "1", [], 0, "g", ["b", "e"]⟩,
    rfl, ?_⟩
  exact (C7_merge_order_fixed_and_missing_file_fails "k" "1" "g" [] 0 ⟨["b"], [], []⟩
    ["e"] (fun _ => true) (fun _ => .ok "e") (fun _ => .ok "merged")).1 _ rfl

/-! ## Claims about the path algebra -/

theorem splitCharAux_ne_nil (sep : Char) :
    ∀ cs acc, splitCharAux sep cs acc ≠ [] := by
  intro cs
  induction cs with
  | nil => intro acc; simp [splitCharAux]
  | cons c rest ih =>
    intro acc
    by_cases h : c = sep <;> simp [splitCharAux, h] <;> exact ih _

theorem splitDot_ne_nil (s : String) : splitDot s ≠ [] := by
  unfold splitDot splitChar
  intro h
  exact splitCharAux_ne_nil '.' s.data [] (List.map_eq_nil_iff.mp h)

theorem setGetParts : ∀ (parts : List String) (v x v' : JValue), parts ≠ [] →
    setPathParts v parts x = .ok v' → getPathParts v' parts = some x := by
  intro parts
  induction parts with
  | nil => intro v x v' hne; exact absurd rfl hne
  | cons part rest ih =>
    intro v x v' _ hok
    cases rest with
    | nil =>
      cases v with
      | obj m =>
        simp only [setPathParts] at hok
        injection hok with h
        subst h
        simp [getPathParts, lookupA_insertA_self]
      | null => simp [setPathParts] at hok
      | bool b => simp [setPathParts] at hok
      | num n => simp [setPathParts] at hok
      | str s => simp [setPathParts] at hok
      | arr xs => simp [setPathParts] at hok
    | cons r rs =>
      cases v with
      | obj m =>
        simp only [setPathParts] at hok
        cases hset : setPathParts ((lookupA m part).getD (.obj [])) (r :: rs) x with
        | error e => rw [hset] at hok; simp at hok
        | ok child' =>
          rw [hset] at hok
          injection hok with h
          subst h
          simp only [getPathParts, lookupA_insertA_self]
          exact ih _ x child' (by simp) hset
      | null => simp [setPathParts] at hok
      | bool b => simp [setPathParts] at hok
      | num n => simp [setPathParts] at hok
      | str s => simp [setPathParts] at hok
      | arr xs => simp [setPathParts] at hok

/-- C8: whenever `set_path` succeeds, `get_path` at the same dot-notation
path on the updated value returns exactly the written value. -/
theorem C8_get_after_set (v : JValue) (p : String) (x v' : JValue)
    (hok : setPath v p x = .ok v') : getPath v' p = some x :=
  setGetParts (splitDot p) v x v' (splitDot_ne_nil p) hok

/-- C8 witness: setting `a.b` in an empty object creates the intermediate
object and the round trip reads the written number back. -/
theorem C8_witness :
    setPath (.obj []) "a.b" (.num 7) = .ok (.obj [("a", .obj [("b", .num 7)])]) ∧
    getPath (.obj [("a", .obj [("b", .num 7)])]) "a.b" = some (.num 7) :=
  ⟨rfl, C8_get_after_set (.obj []) "a.b" (.num 7) _ rfl⟩

/-! ## Prune versus extracted paths (C9)

`collect_paths` renders array positions in bracket form (`a[0]`) while
`delete_path` splits its path argument on `'.'` only and removes object
keys only, so a bracket-form path can never be pruned — the claim's array
case fails.  For pure dot-notation paths over values whose object keys are
plain (nonempty, duplicate-free per object, no `'.'` or `'['` characters),
pruning does remove the path from `extract_all_paths`; the development
below proves this via the key-chain semantics of dot paths. -/

/-- C9 counterexample: pruning the path `a[0]` — exactly the form
`extract_all_paths` produces for an array element — leaves the value
untouched, and `a[0]` is still extracted afterwards, so the pruned-paths
list is not excluded from the result. -/
theorem C9_counterexample_array_path_survives_prune :
    "a[0]" ∈ ["a[0]"] ∧
    prune (.obj [("a", .arr [.num 1])]) ["a[0]"] = .obj [("a", .arr [.num 1])] ∧
    "a[0]" ∈ extractAllPaths (prune (.obj [("a", .arr [.num 1])]) ["a[0]"]) := by
  refine ⟨by simp, rfl, ?_⟩
  show "a[0]" ∈ ["a", "a[0]"]
  simp

/-- A plain object key: nonempty and containing neither `'.'` nor `'['`. -/
def plainKey (k : String) : Bool :=
  !k.data.isEmpty && k.data.all (fun c => !(c = '.' || c = '['))

/-- A path string free of `'['`. -/
def noBracket (p : String) : Bool :=
  p.data.all (fun c => !(c = '['))

/-- Join path segments with dots (the inverse of `splitDot` on plain
segments). -/
def joinDots : List String → String
  | [] => ""
  | [k] => k
  | k :: rest => k ++ "." ++ joinDots rest

/-- The path under prefix `pre` addressing the key chain `ks`; agrees with
how `collect_paths` builds paths through objects. -/
def joinPre (pre : String) (ks : List String) : String :=
  if pre = "" then joinDots ks else pre ++ "." ++ joinDots ks

/-- A nonempty chain of object keys resolvable from the root: the dot-path
semantics by which a `p ∈ extract_all_paths v` without brackets addresses a
node of `v`. -/
def keyChain : JValue → List String → Bool
  | _, [] => false
  | v, k :: rest =>
    match v with
    | .obj m =>
      match lookupA m k with
      | some c => if rest.isEmpty then true else keyChain c rest
      | none => false
    | _ => false

mutual

/-- Well-formed values for the pruning theorem: object keys are plain and
duplicate-free at every level (the duplicate-freedom is an invariant of
`serde_json::Map`; plain keys exclude the dot/bracket ambiguities of the
path syntax). -/
def wfKeys : JValue → Prop
  | .obj m => (m.map Prod.fst).Nodup ∧ wfFields m
  | .arr xs => wfElems xs
  | _ => True

/-- Field-list component of `wfKeys`. -/
def wfFields : List (String × JValue) → Prop
  | [] => True
  | (k, v) :: rest => plainKey k = true ∧ wfKeys v ∧ wfFields rest

/-- Element-list component of `wfKeys`. -/
def wfElems : List JValue → Prop
  | [] => True
  | v :: rest => wfKeys v ∧ wfElems rest

end

theorem wfFields_mem {m : List (String × JValue)} (hwf : wfFields m) :
    ∀ kv ∈ m, plainKey kv.1 = true ∧ wfKeys kv.2 := by
  induction m with
  | nil => simp
  | cons kv₀ rest ih =>
    obtain ⟨k₀, v₀⟩ := kv₀
    rw [wfFields] at hwf
    intro kv hkv
    rcases List.mem_cons.mp hkv with hkv | hkv
    · subst hkv; exact ⟨hwf.1, hwf.2.1⟩
    · exact ih hwf.2.2 kv hkv

theorem lookupA_insertA_ne {α : Type} (m : List (String × α)) (k k' : String) (v : α)
    (hne : k' ≠ k) : lookupA (insertA m k v) k' = lookupA m k' := by
  induction m with
  | nil => simp [insertA, lookupA, Ne.symm hne]
  | cons kv rest ih =>
    by_cases h : kv.1 = k
    · simp [insertA, h, lookupA, Ne.symm hne, h ▸ (Ne.symm hne : k ≠ k')]
    · simp only [insertA, h, if_false, lookupA]
      by_cases h' : kv.1 = k' <;> simp [h', ih]

theorem lookupA_removeA_ne {α : Type} (m : List (String × α)) (k k' : String)
    (hne : k' ≠ k) : lookupA (removeA m k) k' = lookupA m k' := by
  induction m with
  | nil => simp [removeA]
  | cons kv rest ih =>
    by_cases h : kv.1 = k
    · have hkne : ¬(kv.1 = k') := fun he => hne (he ▸ h ▸ rfl)
      simp [removeA, h, lookupA, hkne, Ne.symm hne]
    · simp only [removeA, h, if_false, lookupA]
      by_cases h' : kv.1 = k' <;> simp [h', ih]

theorem lookupA_eq_none_of_not_mem_keys {α : Type} (m : List (String × α)) (k : String)
    (h : k ∉ m.map Prod.fst) : lookupA m k = none := by
  induction m with
  | nil => rfl
  | cons kv rest ih =>
    rw [List.map_cons, List.mem_cons] at h
    push_neg at h
    rw [lookupA, if_neg (fun he => h.1 he.symm)]
    exact ih h.2

theorem lookupA_removeA_self {α : Type} (m : List (String × α)) (k : String)
    (hnd : (m.map Prod.fst).Nodup) : lookupA (removeA m k) k = none := by
  induction m with
  | nil => rfl
  | cons kv rest ih =>
    rw [List.map_cons, List.nodup_cons] at hnd
    by_cases h : kv.1 = k
    · rw [removeA, if_pos h]
      exact lookupA_eq_none_of_not_mem_keys rest k (h ▸ hnd.1)
    · rw [removeA, if_neg h, lookupA, if_neg h]
      exact ih hnd.2

theorem lookupA_mem {α : Type} (m : List (String × α)) (k : String) (v : α)
    (h : lookupA m k = some v) : (k, v) ∈ m := by
  induction m with
  | nil => simp [lookupA] at h
  | cons kv rest ih =>
    rw [lookupA] at h
    by_cases hk : kv.1 = k
    · rw [if_pos hk] at h
      injection h with h
      subst h
      subst hk
      exact .head _
    · rw [if_neg hk] at h
      exact .tail _ (ih h)

theorem mem_keys_lookupA_isSome {α : Type} (m : List (String × α)) (kv : String × α)
    (h : kv ∈ m) : (lookupA m kv.1).isSome := by
  induction m with
  | nil => simp at h
  | cons kv₀ rest ih =>
    rw [lookupA]
    by_cases hk : kv₀.1 = kv.1
    · simp [hk]
    · rw [if_neg hk]
      rcases List.mem_cons.mp h with h | h
      · exact absurd (h ▸ rfl) hk
      · exact ih h

theorem lookupA_of_nodup_mem {α : Type} (m : List (String × α)) (kv : String × α)
    (hnd : (m.map Prod.fst).Nodup) (h : kv ∈ m) : lookupA m kv.1 = some kv.2 := by
  induction m with
  | nil => simp at h
  | cons kv₀ rest ih =>
    rw [List.map_cons, List.nodup_cons] at hnd
    rw [lookupA]
    rcases List.mem_cons.mp h with h | h
    · subst h; simp
    · have hk : kv₀.1 ≠ kv.1 := by
        intro he
        exact hnd.1 (he ▸ List.mem_map_of_mem Prod.fst h)
      rw [if_neg hk]
      exact ih hnd.2 h

theorem keys_insertA_of_lookup {α : Type} (m : List (String × α)) (k : String) (v : α)
    (h : (lookupA m k).isSome) :
    (insertA m k v).map Prod.fst = m.map Prod.fst := by
  induction m with
  | nil => simp [lookupA] at h
  | cons kv rest ih =>
    rw [lookupA] at h
    by_cases hk : kv.1 = k
    · simp [insertA, hk]
    · rw [if_neg hk] at h
      simp [insertA, hk, ih h]

theorem keys_removeA_sublist {α : Type} (m : List (String × α)) (k : String) :
    ((removeA m k).map Prod.fst).Sublist (m.map Prod.fst) := by
  induction m with
  | nil => simp [removeA]
  | cons kv rest ih =>
    by_cases hk : kv.1 = k
    · rw [removeA, if_pos hk, List.map_cons]
      exact (List.Sublist.refl _).cons kv.1
    · rw [removeA, if_neg hk, List.map_cons, List.map_cons]
      exact ih.cons₂ kv.1

theorem wfFields_removeA {m : List (String × JValue)} (hwf : wfFields m) (k : String) :
    wfFields (removeA m k) := by
  induction m with
  | nil => exact hwf
  | cons kv rest ih =>
    obtain ⟨k₀, v₀⟩ := kv
    rw [wfFields] at hwf
    by_cases hk : k₀ = k
    · rw [removeA, if_pos hk]
      exact hwf.2.2
    · rw [removeA, if_neg hk, wfFields]
      exact ⟨hwf.1, hwf.2.1, ih hwf.2.2⟩

theorem wfKeys_obj_removeA {m : List (String × JValue)} (hwf : wfKeys (.obj m))
    (k : String) : wfKeys (.obj (removeA m k)) := by
  rw [wfKeys] at hwf ⊢
  exact ⟨hwf.1.sublist (keys_removeA_sublist m k), wfFields_removeA hwf.2 k⟩

theorem wfFields_insertA {m : List (String × JValue)} {k : String} {c d : JValue}
    (hwf : wfFields m) (hl : lookupA m k = some c) (hd : wfKeys d) :
    wfFields (insertA m k d) := by
  induction m with
  | nil => simp [lookupA] at hl
  | cons kv rest ih =>
    obtain ⟨k₀, v₀⟩ := kv
    rw [wfFields] at hwf
    rw [lookupA] at hl
    by_cases hk : k₀ = k
    · rw [insertA, if_pos hk, wfFields]
      exact ⟨hk ▸ hwf.1, hd, hwf.2.2⟩
    · rw [if_neg hk] at hl
      rw [insertA, if_neg hk, wfFields]
      exact ⟨hwf.1, hwf.2.1, ih hwf.2.2 hl⟩

theorem wfKeys_obj_insertA {m : List (String × JValue)} {k : String} {c d : JValue}
    (hwf : wfKeys (.obj m)) (hl : lookupA m k = some c) (hd : wfKeys d) :
    wfKeys (.obj (insertA m k d)) := by
  rw [wfKeys] at hwf ⊢
  refine ⟨?_, wfFields_insertA hwf.2 hl hd⟩
  rw [keys_insertA_of_lookup m k d (by rw [hl]; rfl)]
  exact hwf.1

theorem wfKeys_deletePathParts : ∀ (parts : List String) (v : JValue),
    wfKeys v → wfKeys (deletePathParts v parts) := by
  intro parts
  induction parts with
  | nil => intro v h; exact h
  | cons part rest ih =>
    intro v hwf
    cases rest with
    | nil =>
      cases v with
      | obj m => exact wfKeys_obj_removeA hwf part
      | null => exact hwf
      | bool b => exact hwf
      | num n => exact hwf
      | str s => exact hwf
      | arr xs => exact hwf
    | cons r rs =>
      cases v with
      | obj m =>
        have hwf' := hwf
        rw [wfKeys] at hwf'
        rw [deletePathParts]
        cases hl : lookupA m part with
        | none => exact hwf
        | some child =>
          have hchild : wfKeys child :=
            (wfFields_mem hwf'.2 (part, child) (lookupA_mem m part child hl)).2
          exact wfKeys_obj_insertA hwf hl (ih child hchild)
        simp
      | null => exact hwf
      | bool b => exact hwf
      | num n => exact hwf
      | str s => exact hwf
      | arr xs => exact hwf

theorem keyChain_deletePathParts_self : ∀ (parts : List String) (v : JValue),
    parts ≠ [] → wfKeys v → keyChain (deletePathParts v parts) parts = false := by
  intro parts
  induction parts with
  | nil => intro v h _; exact absurd rfl h
  | cons part rest ih =>
    intro v _ hwf
    cases rest with
    | nil =>
      cases v with
      | obj m =>
        rw [wfKeys] at hwf
        show keyChain (.obj (removeA m part)) [part] = false
        simp only [keyChain, lookupA_removeA_self m part hwf.1]
      | null => rfl
      | bool b => rfl
      | num n => rfl
      | str s => rfl
      | arr xs => rfl
    | cons r rs =>
      cases v with
      | obj m =>
        have hwf' := hwf
        rw [wfKeys] at hwf'
        cases hl : lookupA m part with
        | none =>
          simp only [deletePathParts, hl]
          simp only [keyChain, hl]
        | some child =>
          have hchild : wfKeys child :=
            (wfFields_mem hwf'.2 (part, child) (lookupA_mem m part child hl)).2
          simp only [deletePathParts, hl]
          simp only [keyChain, lookupA_insertA_self, List.isEmpty_cons,
            Bool.false_eq_true, if_false]
          exact ih child (by simp) hchild
      | null => rfl
      | bool b => rfl
      | num n => rfl
      | str s => rfl
      | arr xs => rfl

theorem keyChain_deletePathParts_mono : ∀ (parts ks : List String) (v : JValue),
    wfKeys v → keyChain (deletePathParts v parts) ks = true → keyChain v ks = true := by
  intro parts
  induction parts with
  | nil => intro ks v _ h; exact h
  | cons part rest ih =>
    intro ks v hwf h
    cases rest with
    | nil =>
      cases v with
      | obj m =>
        cases ks with
        | nil => exact h
        | cons j ks' =>
          rw [wfKeys] at hwf
          simp only [deletePathParts] at h
          by_cases hj : j = part
          · subst hj
            simp only [keyChain, lookupA_removeA_self m j hwf.1] at h
            simp at h
          · simp only [keyChain, lookupA_removeA_ne m part j hj] at h
            simp only [keyChain]
            exact h
      | null => exact h
      | bool b => exact h
      | num n => exact h
      | str s => exact h
      | arr xs => exact h
    | cons r rs =>
      cases v with
      | obj m =>
        have hwf' := hwf
        rw [wfKeys] at hwf'
        cases hl : lookupA m part with
        | none =>
          simp only [deletePathParts, hl] at h
          exact h
        | some child =>
          have hchild : wfKeys child :=
            (wfFields_mem hwf'.2 (part, child) (lookupA_mem m part child hl)).2
          simp only [deletePathParts, hl] at h
          cases ks with
          | nil => exact h
          | cons j ks' =>
            by_cases hj : j = part
            · subst hj
              simp only [keyChain, lookupA_insertA_self] at h
              simp only [keyChain, hl]
              cases hks' : ks'.isEmpty
              · rw [hks'] at h
                simp only [Bool.false_eq_true, if_false] at h ⊢
                exact ih ks' child hchild h
              · rw [hks'] at h
                simp at h ⊢
            · simp only [keyChain, lookupA_insertA_ne m part j _ hj] at h
              simp only [keyChain]
              exact h
      | null => exact h
      | bool b => exact h
      | num n => exact h
      | str s => exact h
      | arr xs => exact h

theorem wfKeys_prune : ∀ (paths : List String) (v : JValue),
    wfKeys v → wfKeys (prune v paths) := by
  intro paths
  induction paths with
  | nil => intro v h; exact h
  | cons q rest ih =>
    intro v hwf
    exact ih _ (wfKeys_deletePathParts (splitDot q) v hwf)

theorem keyChain_prune_mono : ∀ (paths ks : List String) (v : JValue),
    wfKeys v → keyChain (prune v paths) ks = true → keyChain v ks = true := by
  intro paths
  induction paths with
  | nil => intro ks v _ h; exact h
  | cons q rest ih =>
    intro ks v hwf h
    exact keyChain_deletePathParts_mono (splitDot q) ks v hwf
      (ih ks _ (wfKeys_deletePathParts (splitDot q) v hwf) h)

theorem keyChain_prune_false : ∀ (paths : List String) (v : JValue) (p : String),
    wfKeys v → p ∈ paths → keyChain (prune v paths) (splitDot p) = false := by
  intro paths
  induction paths with
  | nil => intro v p _ hp; simp at hp
  | cons q rest ih =>
    intro v p hwf hp
    show keyChain (prune (deletePath v q) rest) (splitDot p) = false
    rcases List.mem_cons.mp hp with hp | hp
    · subst hp
      by_contra hne
      rw [Bool.not_eq_false] at hne
      have h2 := keyChain_prune_mono rest _ _
        (wfKeys_deletePathParts (splitDot p) v hwf) hne
      rw [keyChain_deletePathParts_self (splitDot p) v (splitDot_ne_nil p) hwf] at h2
      cases h2
    · exact ih _ p (wfKeys_deletePathParts (splitDot q) v hwf) hp

/-- Structural induction over the nested value tree, with access to the
induction hypothesis at every array element and object field value. -/
theorem JValue.inductionOn {P : JValue → Prop}
    (hnull : P .null) (hbool : ∀ b, P (.bool b)) (hnum : ∀ n, P (.num n))
    (hstr : ∀ s, P (.str s))
    (harr : ∀ xs, (∀ x ∈ xs, P x) → P (.arr xs))
    (hobj : ∀ m, (∀ kv ∈ m, P kv.2) → P (.obj m)) : ∀ v, P v
  | .null => hnull
  | .bool b => hbool b
  | .num n => hnum n
  | .str s => hstr s
  | .arr xs => harr xs (fun x hx =>
      JValue.inductionOn hnull hbool hnum hstr harr hobj x)
  | .obj m => hobj m (fun kv hkv =>
      JValue.inductionOn hnull hbool hnum hstr harr hobj kv.2)
termination_by v => sizeOf v
decreasing_by
  · have h1 := List.sizeOf_lt_of_mem hx
    simp only [JValue.arr.sizeOf_spec]
    omega
  · obtain ⟨a, b⟩ := kv
    have h1 := List.sizeOf_lt_of_mem hkv
    simp only [JValue.obj.sizeOf_spec, Prod.mk.sizeOf_spec] at h1 ⊢
    omega

theorem plainKey_ne_empty {k : String} (h : plainKey k = true) : k ≠ "" := by
  unfold plainKey at h
  rw [Bool.and_eq_true] at h
  intro he
  subst he
  simp at h

theorem plainKey_no_dot {k : String} (h : plainKey k = true) :
    ∀ c ∈ k.data, c ≠ '.' := by
  unfold plainKey at h
  rw [Bool.and_eq_true, List.all_eq_true] at h
  intro c hc he
  have := h.2 c hc
  subst he
  simp at this

theorem plainKey_no_bracket {k : String} (h : plainKey k = true) :
    ∀ c ∈ k.data, c ≠ '[' := by
  unfold plainKey at h
  rw [Bool.and_eq_true, List.all_eq_true] at h
  intro c hc he
  have := h.2 c hc
  subst he
  simp at this

theorem noBracket_not_mem {q : String} (h : noBracket q = true) : '[' ∉ q.data := by
  unfold noBracket at h
  rw [List.all_eq_true] at h
  intro hmem
  have := h _ hmem
  simp at this

theorem splitCharAux_no_sep (sep : Char) :
    ∀ (cs acc : List Char), (∀ c ∈ cs, c ≠ sep) →
      splitCharAux sep cs acc = [acc.reverse ++ cs] := by
  intro cs
  induction cs with
  | nil => intro acc _; simp [splitCharAux]
  | cons c rest ih =>
    intro acc hno
    rw [splitCharAux, if_neg (hno c (.head _))]
    rw [ih (c :: acc) (fun c' hc' => hno c' (.tail _ hc'))]
    simp

theorem splitCharAux_append_sep (sep : Char) :
    ∀ (cs acc tail : List Char), (∀ c ∈ cs, c ≠ sep) →
      splitCharAux sep (cs ++ sep :: tail) acc =
        (acc.reverse ++ cs) :: splitCharAux sep tail [] := by
  intro cs
  induction cs with
  | nil => intro acc tail _; simp [splitCharAux]
  | cons c rest ih =>
    intro acc tail hno
    rw [List.cons_append, splitCharAux, if_neg (hno c (.head _))]
    rw [ih (c :: acc) tail (fun c' hc' => hno c' (.tail _ hc'))]
    simp

theorem joinDots_cons (k : String) (ks : List String) (hne : ks ≠ []) :
    joinDots (k :: ks) = k ++ "." ++ joinDots ks := by
  cases ks with
  | nil => exact absurd rfl hne
  | cons k' ks' => rfl

theorem split_joinDots : ∀ (ks : List String), ks ≠ [] →
    (∀ k ∈ ks, plainKey k = true) → splitDot (joinDots ks) = ks := by
  intro ks
  induction ks with
  | nil => intro h; exact absurd rfl h
  | cons k rest ih =>
    intro _ hplain
    cases rest with
    | nil =>
      show splitDot k = [k]
      unfold splitDot splitChar
      rw [splitCharAux_no_sep '.' k.data []
        (plainKey_no_dot (hplain k (.head _)))]
      simp only [List.reverse_nil, List.nil_append, List.map_cons, List.map_nil]
      rfl
    | cons k' rest' =>
      rw [joinDots_cons k (k' :: rest') (by simp)]
      unfold splitDot splitChar
      rw [String.data_append, String.data_append]
      have hd : ".".data = ['.'] := rfl
      rw [hd, List.append_assoc, List.singleton_append]
      rw [splitCharAux_append_sep '.' k.data [] (joinDots (k' :: rest')).data
        (plainKey_no_dot (hplain k (.head _)))]
      rw [List.map_cons]
      have htail := ih (by simp) (fun j hj => hplain j (.tail _ hj))
      unfold splitDot splitChar at htail
      rw [htail]
      simp only [List.reverse_nil, List.nil_append]
      rfl

theorem mkPath_ne_empty (pre k : String) (hk : plainKey k = true) :
    mkPath pre k ≠ "" := by
  unfold mkPath
  by_cases hpre : pre = ""
  · rw [if_pos hpre]; exact plainKey_ne_empty hk
  · rw [if_neg hpre]
    intro he
    have hlen := congrArg String.length he
    rw [String.length_append, String.length_append] at hlen
    have h1 : ("." : String).length = 1 := rfl
    have h0 : ("" : String).length = 0 := rfl
    rw [h1, h0] at hlen
    omega

theorem joinPre_cons (pre k : String) (ks : List String) (hks : ks ≠ [])
    (hk : plainKey k = true) :
    joinPre (mkPath pre k) ks = joinPre pre (k :: ks) := by
  unfold joinPre
  by_cases hpre : pre = ""
  · subst hpre
    rw [if_pos rfl]
    have hmk : mkPath "" k = k := by unfold mkPath; rw [if_pos rfl]
    rw [hmk, if_neg (plainKey_ne_empty hk), joinDots_cons k ks hks]
  · rw [if_neg hpre, if_neg (mkPath_ne_empty pre k hk)]
    have hmk : mkPath pre k = pre ++ "." ++ k := by unfold mkPath; rw [if_neg hpre]
    rw [hmk, joinDots_cons k ks hks]
    apply String.ext
    simp only [String.data_append, List.append_assoc]

theorem mkPath_data_pref (pre k : String) : pre.data <+: (mkPath pre k).data := by
  unfold mkPath
  by_cases hpre : pre = ""
  · subst hpre; simp
  · rw [if_neg hpre, String.data_append, String.data_append, List.append_assoc]
    exact List.prefix_append _ _

theorem arrPath_data (pre : String) (i : Nat) :
    (arrPath pre i).data = pre.data ++ '[' :: ((toString i).data ++ "]".data) := by
  unfold arrPath
  rw [String.data_append, String.data_append, String.data_append,
    List.append_assoc, List.append_assoc]
  rfl

theorem arrPath_pref (pre : String) (i : Nat) : pre.data <+: (arrPath pre i).data := by
  rw [arrPath_data]
  exact List.prefix_append _ _

theorem arrPath_has_bracket (pre : String) (i : Nat) : '[' ∈ (arrPath pre i).data := by
  rw [arrPath_data]
  simp

theorem collectPaths_pref : ∀ (v : JValue) (pre q : String),
    q ∈ collectPaths v pre → pre.data <+: q.data := by
  intro v
  induction v using JValue.inductionOn with
  | hnull => intro pre q h; simp [collectPaths] at h
  | hbool b => intro pre q h; simp [collectPaths] at h
  | hnum n => intro pre q h; simp [collectPaths] at h
  | hstr s => intro pre q h; simp [collectPaths] at h
  | harr xs ihx =>
    intro pre q h
    rw [collectPaths] at h
    suffices hsub : ∀ (ys : List JValue) (i : Nat),
        (∀ x ∈ ys, ∀ pre' q', q' ∈ collectPaths x pre' → pre'.data <+: q'.data) →
        ∀ q', q' ∈ collectElems ys i pre → pre.data <+: q'.data by
      exact hsub xs 0 (fun x hx => ihx x hx) q h
    intro ys
    induction ys with
    | nil => intro i _ q' h'; simp [collectElems] at h'
    | cons y rest ihy =>
      intro i hall q' h'
      rw [collectElems] at h'
      rcases List.mem_append.mp h' with h' | h'
      · rcases List.mem_cons.mp h' with h' | h'
        · subst h'; exact arrPath_pref pre i
        · exact (arrPath_pref pre i).trans (hall y (.head _) _ _ h')
      · exact ihy (i + 1) (fun x hx => hall x (.tail _ hx)) q' h'
  | hobj m ihm =>
    intro pre q h
    rw [collectPaths] at h
    suffices hsub : ∀ (fs : List (String × JValue)),
        (∀ kv ∈ fs, ∀ pre' q', q' ∈ collectPaths kv.2 pre' → pre'.data <+: q'.data) →
        ∀ q', q' ∈ collectFields fs pre → pre.data <+: q'.data by
      exact hsub m (fun kv hkv => ihm kv hkv) q h
    intro fs
    induction fs with
    | nil => intro _ q' h'; simp [collectFields] at h'
    | cons kv rest ihf =>
      obtain ⟨k, v⟩ := kv
      intro hall q' h'
      rw [collectFields] at h'
      rcases List.mem_append.mp h' with h' | h'
      · rcases List.mem_cons.mp h' with h' | h'
        · subst h'; exact mkPath_data_pref pre k
        · exact (mkPath_data_pref pre k).trans (hall (k, v) (.head _) _ _ h')
      · exact ihf (fun kv' hkv' => hall kv' (.tail _ hkv')) q' h'

theorem collectElems_bracket : ∀ (xs : List JValue) (i : Nat) (pre q : String),
    q ∈ collectElems xs i pre → '[' ∈ q.data := by
  intro xs
  induction xs with
  | nil => intro i pre q h; simp [collectElems] at h
  | cons x rest ih =>
    intro i pre q h
    rw [collectElems] at h
    rcases List.mem_append.mp h with h | h
    · rcases List.mem_cons.mp h with h | h
      · subst h; exact arrPath_has_bracket pre i
      · exact (collectPaths_pref x _ q h).subset (arrPath_has_bracket pre i)
    · exact ih (i + 1) pre q h

theorem mem_collectFields : ∀ (m : List (String × JValue)) (pre q : String),
    q ∈ collectFields m pre →
      ∃ kv ∈ m, q = mkPath pre kv.1 ∨ q ∈ collectPaths kv.2 (mkPath pre kv.1) := by
  intro m pre q
  induction m with
  | nil => intro h; simp [collectFields] at h
  | cons kv rest ih =>
    obtain ⟨k, v⟩ := kv
    intro h
    rw [collectFields] at h
    rcases List.mem_append.mp h with h | h
    · rcases List.mem_cons.mp h with h | h
      · exact ⟨(k, v), .head _, Or.inl h⟩
      · exact ⟨(k, v), .head _, Or.inr h⟩
    · obtain ⟨kv', hkv', hq'⟩ := ih h
      exact ⟨kv', .tail _ hkv', hq'⟩

theorem collectPaths_plain_chain : ∀ (v : JValue), wfKeys v →
    ∀ (pre q : String), q ∈ collectPaths v pre → noBracket q = true →
      ∃ ks, ks ≠ [] ∧ (∀ k ∈ ks, plainKey k = true) ∧ q = joinPre pre ks ∧
        keyChain v ks = true := by
  intro v
  induction v using JValue.inductionOn with
  | hnull => intro _ pre q h _; simp [collectPaths] at h
  | hbool b => intro _ pre q h _; simp [collectPaths] at h
  | hnum n => intro _ pre q h _; simp [collectPaths] at h
  | hstr s => intro _ pre q h _; simp [collectPaths] at h
  | harr xs ihx =>
    intro _ pre q h hnb
    rw [collectPaths] at h
    exact absurd (collectElems_bracket xs 0 pre q h) (noBracket_not_mem hnb)
  | hobj m ihm =>
    intro hwf pre q h hnb
    rw [collectPaths] at h
    rw [wfKeys] at hwf
    obtain ⟨kv, hkv, hq⟩ := mem_collectFields m pre q h
    have hplain := (wfFields_mem hwf.2 kv hkv).1
    have hwfv := (wfFields_mem hwf.2 kv hkv).2
    rcases hq with hq | hq
    · refine ⟨[kv.1], by simp, by simpa using hplain, hq, ?_⟩
      simp [keyChain, lookupA_of_nodup_mem m kv hwf.1 hkv]
    · obtain ⟨ks', hne', hplain', hjoin', hchain'⟩ :=
        ihm kv hkv hwfv (mkPath pre kv.1) q hq hnb
      refine ⟨kv.1 :: ks', by simp, ?_, ?_, ?_⟩
      · intro j hj
        rcases List.mem_cons.mp hj with hj | hj
        · subst hj; exact hplain
        · exact hplain' j hj
      · rw [hjoin', joinPre_cons pre kv.1 ks' hne' hplain]
      · simp only [keyChain, lookupA_of_nodup_mem m kv hwf.1 hkv]
        cases ks' with
        | nil => exact absurd rfl hne'
        | cons a b => simpa using hchain'

/-- C9 amended: after `prune(v, paths)`, `extract_all_paths` of the result
contains none of the given paths, for paths in pure dot notation (no `'['`)
over values whose object keys are plain — nonempty, duplicate-free within
each object, and free of `'.'` and `'['`.  The restriction is forced by the
counterexample: array-element paths use the bracket form that `delete_path`
(which splits on `'.'` and removes object keys only) can never remove. -/
theorem C9_prune_removes_dot_paths (v : JValue) (paths : List String) (p : String)
    (hwf : wfKeys v) (hp : p ∈ paths) (hnb : noBracket p = true) :
    p ∉ extractAllPaths (prune v paths) := by
  intro hmem
  have hwfp : wfKeys (prune v paths) := wfKeys_prune paths v hwf
  obtain ⟨ks, hne, hplain, hjoin, hchain⟩ :=
    collectPaths_plain_chain (prune v paths) hwfp "" p hmem hnb
  have hjoin' : p = joinDots ks := hjoin
  have hsplit : splitDot p = ks := by
    rw [hjoin']
    exact split_joinDots ks hne hplain
  have hfalse := keyChain_prune_false paths v p hwf hp
  rw [hsplit, hchain] at hfalse
  cases hfalse

/-- C9 witness (for the amended claim): pruning `a.b` from a two-level
object removes it from the extracted paths. -/
theorem C9_witness :
    wfKeys (.obj [("a", .obj [("b", .num 1)]), ("c", .num 2)]) ∧
    "a.b" ∈ ["a.b"] ∧ noBracket "a.b" = true ∧
    "a.b" ∉ extractAllPaths
      (prune (.obj [("a", .obj [("b", .num 1)]), ("c", .num 2)]) ["a.b"]) := by
  have hwf : wfKeys (.obj [("a", .obj [("b", .num 1)]), ("c", .num 2)]) := by
    simp [wfKeys, wfFields, wfElems, plainKey]
  refine ⟨hwf, by simp, by decide, ?_⟩
  exact C9_prune_removes_dot_paths _ ["a.b"] "a.b" hwf (by simp) (by decide)

end Genesis
